import Mathlib

/-!
Verification model of `gib.py`, a static site generator for git repositories.

Conventions of the shallow embedding:
* Python strings are modelled as `List Char`; byte buffers as `List Nat`
  (one natural number per byte); file contents, for the purposes of diff
  statistics, as `List Nat` (one natural number per line).
* Python `dict`s are modelled as association lists together with the
  `dictInsert`/`dictOf` operations, which reproduce dict assignment
  (overwrite keeps the first-insertion position, updates the value) and
  `dict(items)` construction.
* Python `list.sort(key=...)` is a stable ascending sort; it is modelled by
  the stable insertion sort `pySort` (any two stable ascending sorts agree
  on every input, so the model is exact).
* External collaborators (pygit2/libgit2, libmagic, the template engine,
  the filesystem) are modelled from their documented interfaces: mime
  sniffing and time formatting are abstract function parameters, tree
  diffing is modelled over flat path-to-lines maps with minimal (Myers)
  per-file line-edit counts, and the revision walker is characterised by
  the documented contract of `GIT_SORT_TOPOLOGICAL`.
-/

set_option linter.unusedVariables false

namespace Gib

/-! ### Page caps (gib.py lines 15–17) -/

def MAX_COMMITS : Nat := 100
def MAX_REFS : Nat := 100
def MAX_FILES : Nat := 100

/-! ### Stable sorting, the model of Python `list.sort` -/

/-- One step of stable insertion: place `x` before the first element `y`
with `le x y`.  Elements judged strictly smaller than `x` stay in front,
so equal elements keep their original relative order. -/
def pySortInsert {α : Type} (le : α → α → Bool) (x : α) : List α → List α
  | [] => [x]
  | y :: ys => if le x y then x :: y :: ys else y :: pySortInsert le x ys

/-- Stable ascending sort; models Python `list.sort` (Timsort), which is a
stable ascending sort — the output of any stable ascending sort is uniquely
determined by the comparator, so this model computes exactly the same list. -/
def pySort {α : Type} (le : α → α → Bool) : List α → List α
  | [] => []
  | x :: xs => pySortInsert le x (pySort le xs)

/-! ### Small pieces of Python string handling used by gib.py -/

/-- Python whitespace characters removed by `str.strip()` (ASCII range). -/
def pySpace : List Char := [' ', '\t', '\n', '\x0b', '\x0c', '\r']

/-- Python `str.strip()`. -/
def pyStrip (s : List Char) : List Char :=
  ((s.dropWhile (fun c => pySpace.contains c)).reverse.dropWhile
    (fun c => pySpace.contains c)).reverse

/-- `get_commit_message` (gib.py lines 46–47):
`commit.message.split("\n")[0].strip()`.  The first element of the split is
the newline-free initial segment of the message. -/
def get_commit_message (message : List Char) : List Char :=
  pyStrip (message.takeWhile (fun c => c ≠ '\n'))

/-- Python `str.split("/")`.  Always returns at least one (possibly empty)
segment; a separator at either end yields an empty segment there. -/
def splitOnSlash : List Char → List (List Char)
  | [] => [[]]
  | c :: cs =>
    match splitOnSlash cs with
    | [] => [[]]
    | seg :: rest => if c = '/' then [] :: seg :: rest else (c :: seg) :: rest

/-- Joining with `"/"`, as in Python `"/".join(...)` and as produced by the
flattener's path building. -/
def joinSegs : List (List Char) → List Char
  | [] => []
  | [s] => s
  | s :: ss => s ++ '/' :: joinSegs ss

/-- `get_branch_name` (gib.py lines 50–51):
`"/".join(ref.shorthand.split("/")[1:])` — drops the first path component
(the remote name) of the shorthand. -/
def get_branch_name (shorthand : List Char) : List Char :=
  joinSegs (splitOnSlash shorthand).tail

/-! ### Content classification (gib.py lines 20–27) -/

/-- `is_mime_viewable` (gib.py lines 20–27): media types starting with the
text super-type, plus an allow-list holding exactly `application/json`. -/
def is_mime_viewable (mime : List Char) : Bool :=
  "text/".data.isPrefixOf mime || mime == "application/json".data

/-! ### UTF-8 decodability, the model of `bytes.decode("utf-8")`

`str.decode("utf-8")` in strict mode accepts exactly the well-formed UTF-8
byte sequences (no truncated sequences, no overlong encodings, no
surrogates, nothing above U+10FFFF) and raises `UnicodeDecodeError`
otherwise.  Only success or failure of the decode is observable in the
claims, so the model is a validity checker over the byte list. -/

def utf8Cont (b : Nat) : Bool := 128 ≤ b && b < 192

def utf8Ok : List Nat → Bool
  | [] => true
  | b :: bs =>
    if b < 128 then utf8Ok bs
    else if b < 194 then false
    else if b < 224 then
      match bs with
      | c1 :: r => utf8Cont c1 && utf8Ok r
      | [] => false
    else if b = 224 then
      match bs with
      | c1 :: c2 :: r => (160 ≤ c1 && c1 < 192) && utf8Cont c2 && utf8Ok r
      | _ => false
    else if b = 237 then
      match bs with
      | c1 :: c2 :: r => (128 ≤ c1 && c1 < 160) && utf8Cont c2 && utf8Ok r
      | _ => false
    else if b < 240 then
      match bs with
      | c1 :: c2 :: r => utf8Cont c1 && utf8Cont c2 && utf8Ok r
      | _ => false
    else if b = 240 then
      match bs with
      | c1 :: c2 :: c3 :: r => (144 ≤ c1 && c1 < 192) && utf8Cont c2 && utf8Cont c3 && utf8Ok r
      | _ => false
    else if b < 244 then
      match bs with
      | c1 :: c2 :: c3 :: r => utf8Cont c1 && utf8Cont c2 && utf8Cont c3 && utf8Ok r
      | _ => false
    else if b = 244 then
      match bs with
      | c1 :: c2 :: c3 :: r => (128 ≤ c1 && c1 < 144) && utf8Cont c2 && utf8Cont c3 && utf8Ok r
      | _ => false
    else false

/-! ### The permission string: `stat.filemode(mode)[1:]` (gib.py line 181) -/

/-- The nine permission characters of `stat.filemode` (the slice `[1:]`
drops the file-type character). -/
def permChars (m : Nat) : List Char :=
  [if m.testBit 8 then 'r' else '-',
   if m.testBit 7 then 'w' else '-',
   if m.testBit 11 then (if m.testBit 6 then 's' else 'S')
     else (if m.testBit 6 then 'x' else '-'),
   if m.testBit 5 then 'r' else '-',
   if m.testBit 4 then 'w' else '-',
   if m.testBit 10 then (if m.testBit 3 then 's' else 'S')
     else (if m.testBit 3 then 'x' else '-'),
   if m.testBit 2 then 'r' else '-',
   if m.testBit 1 then 'w' else '-',
   if m.testBit 9 then (if m.testBit 0 then 't' else 'T')
     else (if m.testBit 0 then 'x' else '-')]

/-! ### Commits, trees (flat view), and diff statistics -/

/-- A tree as seen by the diff-statistics calculator: the flat map from
full path to file content, one `Nat` per line.  (libgit2's tree-to-tree
diff pairs blobs by full path, so the flat view determines the statistics.) -/
abbrev DTree : Type := List (List Char × List Nat)

/-- A commit as read from the object graph (pygit2 `Commit`): identifier,
author, commit timestamp, message, parent identifiers, and its tree. -/
structure CommitRec where
  id : Nat
  author_name : List Char
  author_email : List Char
  commit_time : Nat
  message : List Char
  parents : List Nat
  tree : List (List Char × List Nat)
  deriving DecidableEq

structure Repo where
  commits : List CommitRec
  deriving DecidableEq

def findCommit (repo : Repo) (oid : Nat) : Option CommitRec :=
  repo.commits.find? (fun c => c.id == oid)

/-- The parent identifiers recorded by a commit, looked up by id. -/
def parentIds (repo : Repo) (cid : Nat) : List Nat :=
  match findCommit repo cid with
  | some c => c.parents
  | none => []

/-- pygit2 `commit.parents`: the parent commits, resolved in the repository.
The model assumes a well-formed object graph in which every recorded parent
id resolves (git guarantees this for non-corrupt repositories). -/
def parentsOf (repo : Repo) (c : CommitRec) : List CommitRec :=
  c.parents.filterMap (findCommit repo)

/-- Length of a longest common subsequence, with explicit fuel (the fuel
only needs to cover the sum of the lengths, see `lcs`). -/
def lcsF : Nat → List Nat → List Nat → Nat
  | 0, _, _ => 0
  | _, [], _ => 0
  | _, _ :: _, [] => 0
  | fuel + 1, a :: as, b :: bs =>
    if a = b then lcsF fuel as bs + 1
    else max (lcsF fuel (a :: as) bs) (lcsF fuel as (b :: bs))

/-- Length of a longest common subsequence of two line lists. -/
def lcs (x y : List Nat) : Nat := lcsF (x.length + y.length) x y

/-- Per-file (insertions, deletions) between an old and a new version of a
file: the counts of a minimal line edit script, which is what libgit2's
(Myers) diff reports — additions are `new minus LCS`, deletions are
`old minus LCS`. -/
def lineDiff (old new : List Nat) : Nat × Nat :=
  (new.length - lcs old new, old.length - lcs old new)

/-- Aggregate (insertions, deletions) of a tree-to-tree diff, summed over
all changed paths: files present in both sides contribute their line edit
counts, files only in the old side count as fully deleted, files only in
the new side as fully inserted. -/
def diffStats (old new : DTree) : Nat × Nat :=
  let fromOld := old.foldr (fun p acc =>
    match new.lookup p.1 with
    | some ls => (acc.1 + (lineDiff p.2 ls).1, acc.2 + (lineDiff p.2 ls).2)
    | none => (acc.1, acc.2 + p.2.length)) ((0, 0) : Nat × Nat)
  let added := new.foldr (fun p acc =>
    match old.lookup p.1 with
    | some _ => acc
    | none => acc + p.2.length) 0
  (fromOld.1 + added, fromOld.2)

/-- pygit2 `Tree.diff_to_tree(tree, swap)`: the receiver is the *old* side
of the diff and the argument (defaulting to the empty tree) the *new* side;
`swap=True` exchanges the two roles. -/
def diff_to_tree (selfTree : DTree) (other : Option DTree) (swapFlag : Bool) :
    Nat × Nat :=
  let t := other.getD []
  if swapFlag then diffStats t selfTree else diffStats selfTree t

/-- The statistics computed per commit by `generate_commits_html`
(gib.py lines 109–114): for a commit with a parent,
`commit.tree.diff_to_tree(parent.tree).stats`; for a root commit,
`commit.tree.diff_to_tree(swap=True).stats`. -/
def commitStats (repo : Repo) (c : CommitRec) : Nat × Nat :=
  match parentsOf repo c with
  | parent :: _ => diff_to_tree c.tree (some parent.tree) false
  | [] => diff_to_tree c.tree none true

/-- Following the spec's words (Diff Statistics Calculator contract):
"(insertions, deletions) as the sum of added/removed lines across all
changed paths between this commit's tree and the tree of its first listed
parent", i.e. the diff taken *from the first parent's tree to the commit's
tree*; for a root commit the baseline is the empty tree. -/
def specCommitStats (repo : Repo) (c : CommitRec) : Nat × Nat :=
  match parentsOf repo c with
  | parent :: _ => diffStats parent.tree c.tree
  | [] => diffStats [] c.tree

/-- Total number of lines of all files in a (flat) tree. -/
def totalLines (t : DTree) : Nat :=
  (t.map (fun p => p.2.length)).sum

/-! ### The commits page (gib.py lines 102–136) -/

structure CommitRow where
  commit_author_name : List Char
  commit_author_email : List Char
  commit_time : List Char
  commit_id : Nat
  commit_message : List Char
  commit_insertions : Nat
  commit_deletions : Nat
  deriving DecidableEq

structure CommitsPage where
  rows : List CommitRow
  n_commits : Nat
  deriving DecidableEq

/-- The display order of the commits page (gib.py lines 104–105):
`commits.sort(key=lambda commit: commit.commit_time)` followed by
`commits.reverse()`. -/
def displayOrder (l : List CommitRec) : List CommitRec :=
  (pySort (fun a b => decide (a.commit_time ≤ b.commit_time)) l).reverse

/-- One row of the commits page (gib.py lines 116–126).  `fmt` abstracts
`format_time` (calendar formatting through the external datetime library). -/
def commitRowOf (fmt : Nat → List Char) (repo : Repo) (c : CommitRec) :
    CommitRow :=
  { commit_author_name := c.author_name
    commit_author_email := c.author_email
    commit_time := fmt c.commit_time
    commit_id := c.id
    commit_message := get_commit_message c.message
    commit_insertions := (commitStats repo c).1
    commit_deletions := (commitStats repo c).2 }

/-- `generate_commits_html` (gib.py lines 102–136), as the page data it
passes to the template: `walked` is the list returned by `get_commits`.
The Python loop runs over all indices and appends a row only when
`i < MAX_COMMITS` (statistics computed for commits beyond the cap do not
reach the page), and reports `n_commits=len(commits)`. -/
def generate_commits_html (fmt : Nat → List Char) (repo : Repo)
    (walked : List CommitRec) : CommitsPage :=
  let commits := displayOrder walked
  { rows := (commits.enum.filter (fun p => p.1 < MAX_COMMITS)).map
      (fun p => commitRowOf fmt repo p.2)
    n_commits := commits.length }

/-! ### The refs page (gib.py lines 139–166) -/

/-- A reference as used by the refs page: pygit2 exposes `shorthand` for
display and resolves to a commit. -/
structure RefRec where
  shorthand : List Char
  deriving DecidableEq

/-- A (reference, commit) pair as returned by `get_branches`/`get_tags`. -/
abbrev RC : Type := RefRec × CommitRec

structure RefRow where
  name : List Char
  commit_id : Nat
  commit_message : List Char
  deriving DecidableEq

structure RefsPage where
  branches : List RefRow
  tags : List RefRow
  n_branches : Nat
  n_tags : Nat
  deriving DecidableEq

/-- The list processing of `generate_refs_html` (gib.py lines 142–145):
`tmp = raw_data[i][:MAX_REFS]`, `tmp.sort(key=lambda x: x[1].commit_time)`,
`tmp.reverse()` — the slice is taken *before* the sort. -/
def refsProcess (l : List RC) : List RC :=
  (pySort (fun a b => decide (a.2.commit_time ≤ b.2.commit_time))
    (l.take MAX_REFS)).reverse

/-- One refs-page row (gib.py lines 148–152); branches display
`get_branch_name(ref)`, tags display `ref.shorthand`. -/
def refRowOf (isBranches : Bool) (p : RC) : RefRow :=
  { name := if isBranches then get_branch_name p.1.shorthand else p.1.shorthand
    commit_id := p.2.id
    commit_message := get_commit_message p.2.message }

def refsRowsOf (isBranches : Bool) (l : List RC) : List RefRow :=
  (refsProcess l).map (refRowOf isBranches)

/-- `generate_refs_html` (gib.py lines 139–166) as the page data passed to
the template: note `n_branches=len(data[0])` and `n_tags=len(data[1])` are
the lengths of the *capped* row lists. -/
def generate_refs_html (branches tags : List RC) : RefsPage :=
  let b := refsRowsOf true branches
  let t := refsRowsOf false tags
  { branches := b, tags := t, n_branches := b.length, n_tags := t.length }

/-- Following the spec's words (Bounded List Builder guarantee): the rows
are "the first N elements of the *already-sorted* input" — the reference
list is first fully sorted by commit time descending, and only then capped
to `MAX_REFS`. -/
def specRefsProcess (l : List RC) : List RC :=
  ((pySort (fun a b => decide (a.2.commit_time ≤ b.2.commit_time)) l).reverse).take
    MAX_REFS

def specRefsRowsOf (isBranches : Bool) (l : List RC) : List RefRow :=
  (specRefsProcess l).map (refRowOf isBranches)

/-! ### The commit history walker (gib.py lines 54–59)

`get_commits` returns `[commit for commit in repo.walk(start, GIT_SORT_TOPOLOGICAL)]`.
The walk itself is performed by the external library; libgit2 documents
`GIT_SORT_TOPOLOGICAL` as emitting every commit reachable from the start
exactly once, with *no parent emitted before all of its children* —
descendants first.  The model characterises the returned list by exactly
that contract. -/

/-- Reachability (along parent links) within a bounded number of steps.
Any reachable commit is reachable along a repetition-free path, so fuel
equal to the number of commits in the repository captures full
reachability. -/
def reachF (repo : Repo) : Nat → Nat → Nat → Bool
  | 0, a, b => a == b
  | n + 1, a, b => a == b || (parentIds repo a).any (fun p => reachF repo n p b)

/-- Strict ancestry: `Ancestor repo c a` means `a` is reachable from `c`
by one or more parent steps. -/
inductive Ancestor (repo : Repo) : Nat → Nat → Prop where
  | parent {c p : Nat} : p ∈ parentIds repo c → Ancestor repo c p
  | step {c p a : Nat} : p ∈ parentIds repo c → Ancestor repo p a →
      Ancestor repo c a

/-- Modelled from the documented contract of the external revision walker
(pygit2/libgit2 `repo.walk(start, GIT_SORT_TOPOLOGICAL)`), whose list of
results `get_commits` returns: the output contains each commit reachable
from the start exactly once (and nothing else), contains the parents of
every listed commit, and never emits a parent before any of its listed
children. -/
def walkContract (repo : Repo) (start : Nat) (out : List Nat) : Prop :=
  out.Nodup ∧
  (∀ c ∈ out, reachF repo repo.commits.length start c = true) ∧
  (∀ c, reachF repo repo.commits.length start c = true → c ∈ out) ∧
  (∀ c ∈ out, ∀ p ∈ parentIds repo c, p ∈ out ∧ out.indexOf c < out.indexOf p)

/-- The ordering property asserted by the claim under examination: every
listed commit's ancestors that are also listed appear *earlier* in the
output. -/
def ancestorsListedEarlier (repo : Repo) (out : List Nat) : Prop :=
  ∀ c ∈ out, ∀ a, Ancestor repo c a → a ∈ out →
    out.indexOf a < out.indexOf c

/-- The commit records for a list of walked ids (the walker yields commit
objects; the model keeps ids in the contract and resolves them here). -/
def recordsOf (repo : Repo) (ids : List Nat) : List CommitRec :=
  ids.filterMap (findCommit repo)

/-! ### The reference resolver for tags (gib.py lines 74–86) -/

/-- Objects of the object graph as relevant to reference resolution:
commits, trees, blobs and annotated tag objects. -/
inductive GitObj where
  | commit (id : Nat) (time : Nat)
  | tree (id : Nat)
  | blob (data : List Nat)
  | tag (target : Nat)
  deriving DecidableEq

structure TagRef where
  name : List Char
  target : Nat
  deriving DecidableEq

structure ObjRepo where
  references : List TagRef
  objects : List (Nat × GitObj)
  deriving DecidableEq

/-- pygit2 `repo.get(oid)`. -/
def objGet (repo : ObjRepo) (oid : Nat) : Option GitObj :=
  repo.objects.lookup oid

def tagsNS : List Char := "refs/tags/".data

/-- The loop body of `get_tags` (gib.py lines 74–86): skip references
outside `refs/tags/`; dereference an annotated tag object once; append the
(reference, target) pair with *no* check that the target is a commit. -/
def getTagsLoop (repo : ObjRepo) : List TagRef → List (TagRef × Option GitObj)
  | [] => []
  | r :: rest =>
    if tagsNS.isPrefixOf r.name then
      (r, match objGet repo r.target with
          | some (GitObj.tag t) => objGet repo t
          | t => t) :: getTagsLoop repo rest
    else getTagsLoop repo rest

def get_tags (repo : ObjRepo) : List (TagRef × Option GitObj) :=
  getTagsLoop repo repo.references

/-- One dereference step, named for the specification's description of the
resolver: an annotated tag object is followed to its target once, anything
else is returned as-is. -/
def derefOnce (repo : ObjRepo) (oid : Nat) : Option GitObj :=
  match objGet repo oid with
  | some (GitObj.tag t) => objGet repo t
  | t => t

def isCommitObj : Option GitObj → Bool
  | some (GitObj.commit _ _) => true
  | _ => false

/-- The property asserted by the claim under examination: the resolver
never returns a pair whose resolved object is not a commit. -/
@[reducible] def resolverExcludesNonCommits (repo : ObjRepo) : Prop :=
  ∀ p ∈ get_tags repo, isCommitObj p.2 = true

/-! ### Trees, `list_files` (gib.py lines 62–71) and `flatten` (lines 31–39) -/

/-- A git tree, i.e. the ordered list of entries of one directory level:
`nil` ends the list, `sub` is a named subtree entry followed by the rest of
the list, `blob` a named blob entry followed by the rest.  (The list of
entries is inlined into the inductive so that every traversal below is
plain structural recursion.) -/
inductive GForest where
  | nil : GForest
  | sub (name : List Char) (children : GForest) (rest : GForest) : GForest
  | blob (name : List Char) (data : List Nat) (filemode : Nat)
      (rest : GForest) : GForest
  deriving DecidableEq

/-- The nested Python dictionary built by `list_files`, in insertion
order: each entry maps a key either to a blob value (its `data` and
`filemode`, the two attributes later read by `generate_files_html`) or to
a nested dictionary. -/
inductive PyDict where
  | nil : PyDict
  | file (key : List Char) (data : List Nat) (filemode : Nat)
      (rest : PyDict) : PyDict
  | dict (key : List Char) (entries : PyDict) (rest : PyDict) : PyDict
  deriving DecidableEq

/-- Python dict assignment `d[k] = v` on the nested dictionary: an
existing key keeps its position and receives the new entry, a new key is
appended at the end.  `mk` builds the assigned entry from the key and the
remainder of the dictionary. -/
def dictSet (mk : List Char → PyDict → PyDict) : PyDict → List Char → PyDict
  | PyDict.nil, k => mk k PyDict.nil
  | PyDict.file k0 d m r, k =>
    if k0 = k then mk k r else PyDict.file k0 d m (dictSet mk r k)
  | PyDict.dict k0 es r, k =>
    if k0 = k then mk k r else PyDict.dict k0 es (dictSet mk r k)

/-- The keys of a nested dictionary level, in order. -/
def keysD : PyDict → List (List Char)
  | PyDict.nil => []
  | PyDict.file k _ _ r => k :: keysD r
  | PyDict.dict k _ r => k :: keysD r

/-- Concatenation of two nested-dictionary levels. -/
def dAppend : PyDict → PyDict → PyDict
  | PyDict.nil, e => e
  | PyDict.file k d m r, e => PyDict.file k d m (dAppend r e)
  | PyDict.dict k es r, e => PyDict.dict k es (dAppend r e)

/-- `list_files` (gib.py lines 62–71): build the nested dict mapping entry
names to blobs or recursively listed subtrees.  The accumulator is the
`files` dict under construction. -/
def list_files : GForest → PyDict → PyDict
  | GForest.nil, acc => acc
  | GForest.sub n cs rest, acc =>
    list_files rest
      (dictSet (fun k r => PyDict.dict k (list_files cs PyDict.nil) r) acc n)
  | GForest.blob n d m rest, acc =>
    list_files rest (dictSet (fun k r => PyDict.file k d m r) acc n)

/-- Python `parent_key + separator + key if parent_key else key` with
`separator="/"` (gib.py line 34). -/
def mkKey (parent k : List Char) : List Char :=
  if parent = [] then k else parent ++ '/' :: k

/-- The `items` list accumulated by `flatten` (gib.py lines 31–39): nested
dicts are recursed into with the extended key, other values are appended
as (full path, blob payload) pairs. -/
def flattenItems : PyDict → List Char → List (List Char × (List Nat × Nat))
  | PyDict.nil, _ => []
  | PyDict.file k d m r, parent =>
    (mkKey parent k, (d, m)) :: flattenItems r parent
  | PyDict.dict k es r, parent =>
    flattenItems es (mkKey parent k) ++ flattenItems r parent

/-- Python dict assignment on a flat dict of (path, blob payload) pairs:
an existing key keeps its position and gets the new value, a new key is
appended. -/
def dictInsert {β : Type} (d : List (List Char × β)) (k : List Char) (v : β) :
    List (List Char × β) :=
  if d.any (fun p => p.1 == k) then
    d.map (fun p => if p.1 == k then (k, v) else p)
  else d ++ [(k, v)]

/-- Python `dict(items)`: left-to-right insertion of all pairs. -/
def dictOf {β : Type} (l : List (List Char × β)) : List (List Char × β) :=
  l.foldl (fun d p => dictInsert d p.1 p.2) []

/-- `flatten` (gib.py lines 31–39): the accumulated items turned back into
a dict. -/
def flatten (d : PyDict) (parent : List Char) :
    List (List Char × (List Nat × Nat)) :=
  dictOf (flattenItems d parent)

/-- The plain nested dict a git tree denotes when sibling names are
distinct (so that no dict assignment ever overwrites). -/
def plainD : GForest → PyDict
  | GForest.nil => PyDict.nil
  | GForest.sub n cs rest => PyDict.dict n (plainD cs) (plainD rest)
  | GForest.blob n d m rest => PyDict.file n d m (plainD rest)

/-- The entry names of one directory level. -/
def names : GForest → List (List Char)
  | GForest.nil => []
  | GForest.sub n _ r => n :: names r
  | GForest.blob n _ _ r => n :: names r

/-- A valid git entry name: nonempty and free of the path separator (git
enforces both for tree entry names). -/
def goodName (s : List Char) : Prop := s ≠ [] ∧ '/' ∉ s

/-- Well-formedness of a git tree: entry names are valid and pairwise
distinct within each directory level, recursively — all structural
invariants of git trees. -/
inductive WfForest : GForest → Prop where
  | nil : WfForest GForest.nil
  | blob {n : List Char} {d : List Nat} {m : Nat} {r : GForest} :
      goodName n → n ∉ names r → WfForest r →
      WfForest (GForest.blob n d m r)
  | sub {n : List Char} {cs r : GForest} :
      goodName n → n ∉ names r → WfForest cs → WfForest r →
      WfForest (GForest.sub n cs r)

/-- Number of leaf (non-subtree) entries reachable from a tree. -/
def leafCount : GForest → Nat
  | GForest.nil => 0
  | GForest.sub _ cs rest => leafCount cs + leafCount rest
  | GForest.blob _ _ _ rest => 1 + leafCount rest

/-- The leaves of a tree, each with its full segment path (in traversal
order) and its blob payload. -/
def leaves : GForest → List (List (List Char) × (List Nat × Nat))
  | GForest.nil => []
  | GForest.sub n cs rest =>
    (leaves cs).map (fun p => (n :: p.1, p.2)) ++ leaves rest
  | GForest.blob n d m rest => ([n], (d, m)) :: leaves rest

/-! ### The files page (gib.py lines 169–215) -/

structure FileRow where
  mode : List Char
  path : List Char
  viewable : Bool
  deriving DecidableEq

structure FilesPage where
  rows : List FileRow
  n_files : Nat
  deriving DecidableEq

/-- Lexicographic comparison of paths by character code, the order of
Python string comparison used by `raw_data.sort(key=lambda x: x[0])`. -/
def strLe : List Char → List Char → Bool
  | [], _ => true
  | _ :: _, [] => false
  | a :: as, b :: bs => if a = b then strLe as bs else decide (a < b)

/-- The per-file loop of `generate_files_html` (gib.py lines 179–206):
for each file in order, a row is recorded when the index is below
`MAX_FILES`; then, if the file's sniffed media type is viewable, its bytes
are decoded as UTF-8 for the viewer page — a decode failure raises
`UnicodeDecodeError`, which no caller catches, so it aborts the function
(modelled as `Except.error` carrying the failing path). -/
def filesLoop (sniff : List Nat → List Char) :
    List (List Char × (List Nat × Nat)) → Nat → List FileRow →
    Except (List Char) (List FileRow)
  | [], _, data => Except.ok data
  | (path, v) :: rest, i, data =>
    let mime := sniff v.1
    let data' := if i < MAX_FILES then
        data ++ [{ mode := permChars v.2, path := path,
                   viewable := is_mime_viewable mime }]
      else data
    if is_mime_viewable mime then
      if utf8Ok v.1 then filesLoop sniff rest (i + 1) data'
      else Except.error path
    else filesLoop sniff rest (i + 1) data'

/-- The sorted flat file list `raw_data` of `generate_files_html`
(gib.py lines 175–176). -/
def rawFiles (tree : GForest) : List (List Char × (List Nat × Nat)) :=
  pySort (fun a b => strLe a.1 b.1) (flatten (list_files tree PyDict.nil) [])

/-- `generate_files_html` (gib.py lines 169–215) as the files-page data it
passes to the template, with `n_files=len(raw_data)`; an uncaught
`UnicodeDecodeError` inside the loop propagates out before the files page
is rendered. -/
def generate_files_html (sniff : List Nat → List Char) (tree : GForest) :
    Except (List Char) FilesPage :=
  match filesLoop sniff (rawFiles tree) 0 [] with
  | Except.ok data => Except.ok { rows := data, n_files := (rawFiles tree).length }
  | Except.error e => Except.error e

/-! ### The index entry point (gib.py lines 261–266) -/

inductive FNode where
  | file (content : List Char)
  | symlink (target : List Char)
  deriving DecidableEq

/-- The output directory as a name-to-node map. -/
abbrev FileSys : Type := List (List Char × FNode)

def lookupFS (fs : FileSys) (p : List Char) : Option FNode := fs.lookup p

/-- Path resolution following symbolic links, bounded by the system's
symlink-loop limit (resolution of a longer chain fails with `ELOOP`, which
`os.path.exists` reports as `False`). -/
def resolvesToFile : Nat → FileSys → List Char → Bool
  | 0, _, _ => false
  | fuel + 1, fs, p =>
    match lookupFS fs p with
    | some (FNode.file _) => true
    | some (FNode.symlink t) => resolvesToFile fuel fs t
    | none => false

/-- Python `os.path.exists`: follows symbolic links; `False` for a missing
path *and* for a symlink whose resolution fails. -/
def os_path_exists (fs : FileSys) (p : List Char) : Bool :=
  resolvesToFile 40 fs p

/-- Python `os.remove`: removes the directory entry itself (a symlink is
removed, not its target). -/
def os_remove (fs : FileSys) (p : List Char) : FileSys :=
  fs.filter (fun q => q.1 != p)

def fileExistsError : List Char := "FileExistsError".data

/-- Python `os.symlink(target, path)`: fails with `FileExistsError` when
the path already exists as *any* directory entry, including a dangling
symbolic link. -/
def os_symlink (fs : FileSys) (target p : List Char) :
    Except (List Char) FileSys :=
  if (lookupFS fs p).isSome then Except.error fileExistsError
  else Except.ok (fs ++ [(p, FNode.symlink target)])

def indexPath : List Char := "index.html".data

/-- The real path of the freshly written files page, the symlink target of
gib.py line 264. -/
def filesTarget : List Char := "files.html".data

/-- gib.py lines 261–266: remove `index.html` if `os.path.exists` says it
exists, then create the symlink to the primary page. -/
def replace_index (fs : FileSys) : Except (List Char) FileSys :=
  os_symlink
    (if os_path_exists fs indexPath then os_remove fs indexPath else fs)
    filesTarget indexPath

def exceptOk {ε α : Type} : Except ε α → Bool
  | Except.ok _ => true
  | Except.error _ => false

/-! ### Concrete instances used by counterexamples and witnesses -/

/-- Head commit of a two-commit chain; same commit time as its parent. -/
def cW0 : CommitRec :=
  { id := 0, author_name := [], author_email := [], commit_time := 5,
    message := [], parents := [1], tree := [] }

/-- Root commit of the two-commit chain. -/
def cW1 : CommitRec :=
  { id := 1, author_name := [], author_email := [], commit_time := 5,
    message := [], parents := [], tree := [] }

/-- A linear two-commit repository (head `cW0`, root `cW1`) with equal
commit times. -/
def exRepoW : Repo := { commits := [cW0, cW1] }

/-- Head commit `A` of the statistics example: its tree adds the one-line
file `b` on top of its parent's tree. -/
def cA1 : CommitRec :=
  { id := 0, author_name := [], author_email := [], commit_time := 1,
    message := [], parents := [1],
    tree := [("a".data, [10]), ("b".data, [20])] }

/-- Root commit `R` of the statistics example: one file `a` with one line. -/
def cR1 : CommitRec :=
  { id := 1, author_name := [], author_email := [], commit_time := 0,
    message := [], parents := [], tree := [("a".data, [10])] }

def exRepoC1 : Repo := { commits := [cA1, cR1] }

/-- 101 references with strictly increasing commit times: the most recent
reference is the last one enumerated. -/
def exRefs101 : List RC :=
  (List.range 101).map (fun i =>
    (({ shorthand := [] } : RefRec),
     ({ id := i, author_name := [], author_email := [], commit_time := i,
        message := [], parents := [], tree := [] } : CommitRec)))

/-- A two-element reference list (for witnesses below the cap). -/
def exRefs2 : List RC :=
  (List.range 2).map (fun i =>
    (({ shorthand := [] } : RefRec),
     ({ id := i, author_name := [], author_email := [], commit_time := 7 - i,
        message := [], parents := [], tree := [] } : CommitRec)))

/-- A repository whose only tag points directly at a blob. -/
def exTagRepo : ObjRepo :=
  { references := [{ name := "refs/tags/v1".data, target := 7 }],
    objects := [(7, GitObj.blob [1, 2])] }

/-- A tree with one nested and one top-level blob. -/
def exTree9 : GForest :=
  GForest.sub "d".data (GForest.blob "f".data [65] 33188 GForest.nil)
    (GForest.blob "g".data [66] 33188 GForest.nil)

/-- A file whose bytes start an unfinished three-byte UTF-8 sequence:
`b"a\xe9"` is not decodable as UTF-8. -/
def exTree6 : GForest :=
  GForest.blob ('a' :: ".txt".data) [97, 233] 33188 GForest.nil

/-- A mime sniffer that reports plain text for every buffer. -/
def sniffText : List Nat → List Char := fun _ => "text/plain".data

/-- A decodable one-file tree for witnesses. -/
def exTreeOk : GForest :=
  GForest.blob ('o' :: "k.txt".data) [104, 105] 33188 GForest.nil

/-- A dangling `index.html` symlink: its target is absent from the
directory. -/
def exFS : FileSys := [(indexPath, FNode.symlink "old.html".data)]

/-! # Theorems

First a toolkit about the stable sort `pySort`, then the development for
each component, then the claim theorems. -/

theorem mem_pySortInsert {α : Type} (le : α → α → Bool) (x a : α)
    (l : List α) : a ∈ pySortInsert le x l ↔ a = x ∨ a ∈ l := by
  induction l with
  | nil => simp [pySortInsert]
  | cons y ys ih =>
    simp only [pySortInsert]
    split
    · simp [List.mem_cons]
    · simp only [List.mem_cons, ih]
      tauto

theorem pySortInsert_perm {α : Type} (le : α → α → Bool) (x : α)
    (l : List α) : List.Perm (pySortInsert le x l) (x :: l) := by
  induction l with
  | nil => exact List.Perm.refl _
  | cons y ys ih =>
    simp only [pySortInsert]
    split
    · exact List.Perm.refl _
    · exact (ih.cons y).trans (List.Perm.swap x y ys)

theorem pySort_perm {α : Type} (le : α → α → Bool) (l : List α) :
    List.Perm (pySort le l) l := by
  induction l with
  | nil => exact List.Perm.refl _
  | cons x xs ih =>
    exact (pySortInsert_perm le x (pySort le xs)).trans (ih.cons x)

theorem length_pySort {α : Type} (le : α → α → Bool) (l : List α) :
    (pySort le l).length = l.length :=
  (pySort_perm le l).length_eq

theorem pairwise_pySortInsert {α : Type} (le : α → α → Bool)
    (htot : ∀ a b, le a b = true ∨ le b a = true)
    (htrans : ∀ a b c, le a b = true → le b c = true → le a c = true)
    (x : α) (l : List α) (h : l.Pairwise (fun a b => le a b = true)) :
    (pySortInsert le x l).Pairwise (fun a b => le a b = true) := by
  induction l with
  | nil => simp [pySortInsert]
  | cons y ys ih =>
    rcases List.pairwise_cons.mp h with ⟨hy, hys⟩
    simp only [pySortInsert]
    split
    · rename_i hxy
      refine List.pairwise_cons.mpr ⟨?_, h⟩
      intro z hz
      rcases List.mem_cons.mp hz with rfl | hz2
      · exact hxy
      · exact htrans x y z hxy (hy z hz2)
    · rename_i hxy
      have hyx : le y x = true := by
        rcases htot x y with h1 | h1
        · exact absurd h1 hxy
        · exact h1
      refine List.pairwise_cons.mpr ⟨?_, ih hys⟩
      intro z hz
      rcases (mem_pySortInsert le x z ys).mp hz with rfl | hz2
      · exact hyx
      · exact hy z hz2

theorem pairwise_pySort {α : Type} (le : α → α → Bool)
    (htot : ∀ a b, le a b = true ∨ le b a = true)
    (htrans : ∀ a b c, le a b = true → le b c = true → le a c = true)
    (l : List α) : (pySort le l).Pairwise (fun a b => le a b = true) := by
  induction l with
  | nil => simp [pySort]
  | cons x xs ih => exact pairwise_pySortInsert le htot htrans x _ ih

theorem sublist_pySortInsert {α : Type} (le : α → α → Bool) (x : α)
    (l : List α) : List.Sublist l (pySortInsert le x l) := by
  induction l with
  | nil => exact List.nil_sublist _
  | cons y ys ih =>
    simp only [pySortInsert]
    split
    · exact List.sublist_cons_self x (y :: ys)
    · exact ih.cons₂ y

theorem pySortInsert_pair {α : Type} (le : α → α → Bool) (x y : α)
    (s : List α) (hxy : le x y = true) (hy : y ∈ s) :
    List.Sublist [x, y] (pySortInsert le x s) := by
  induction s with
  | nil => cases hy
  | cons w ws ih =>
    simp only [pySortInsert]
    split
    · exact (List.singleton_sublist.mpr hy).cons₂ x
    · rename_i hxw
      rcases List.mem_cons.mp hy with rfl | hy2
      · exact absurd hxy hxw
      · exact (ih hy2).cons w

/-- Stability of the sort on a pair: two elements in order whose
comparison holds keep their relative order. -/
theorem pySort_pair {α : Type} (le : α → α → Bool) (x y : α) (l : List α)
    (h : List.Sublist [x, y] l) (hxy : le x y = true) :
    List.Sublist [x, y] (pySort le l) := by
  induction l with
  | nil => cases h
  | cons z zs ih =>
    cases h with
    | cons _ h2 =>
      exact (ih h2).trans (sublist_pySortInsert le z (pySort le zs))
    | cons₂ _ h2 =>
      exact pySortInsert_pair le x y (pySort le zs) hxy
        ((pySort_perm le zs).mem_iff.mpr (List.singleton_sublist.mp h2))

/-! ### The tree flattener: `list_files` composed with `flatten` -/

theorem dAppend_nil (d : PyDict) : dAppend d PyDict.nil = d := by
  induction d with
  | nil => rfl
  | file k dt m r ih => simp [dAppend, ih]
  | dict k es r ihes ihr => simp [dAppend, ihr]

theorem dAppend_assoc (a b c : PyDict) :
    dAppend (dAppend a b) c = dAppend a (dAppend b c) := by
  induction a with
  | nil => rfl
  | file k dt m r ih => simp [dAppend, ih]
  | dict k es r ihes ihr => simp [dAppend, ihr]

theorem keysD_dAppend (a b : PyDict) :
    keysD (dAppend a b) = keysD a ++ keysD b := by
  induction a with
  | nil => rfl
  | file k dt m r ih => simp [dAppend, keysD, ih]
  | dict k es r ihes ihr => simp [dAppend, keysD, ihr]

/-- Dict assignment with a fresh key appends the new entry at the end. -/
theorem dictSet_fresh (mk : List Char → PyDict → PyDict) (d : PyDict)
    (k : List Char) (hk : k ∉ keysD d) :
    dictSet mk d k = dAppend d (mk k PyDict.nil) := by
  induction d with
  | nil => rfl
  | file k0 dt m r ih =>
    have hne : k0 ≠ k := by
      intro h
      exact hk (h ▸ List.mem_cons_self k0 (keysD r))
    simp [dictSet, dAppend, hne, ih (fun h => hk (List.mem_cons_of_mem k0 h))]
  | dict k0 es r ihes ihr =>
    have hne : k0 ≠ k := by
      intro h
      exact hk (h ▸ List.mem_cons_self k0 (keysD r))
    simp [dictSet, dAppend, hne, ihr (fun h => hk (List.mem_cons_of_mem k0 h))]

/-- Under the git tree invariants, `list_files` builds exactly the plain
nested dict of the tree, appended to whatever the accumulator holds. -/
theorem list_files_plain (t : GForest) : ∀ acc : PyDict, WfForest t →
    (∀ k ∈ names t, k ∉ keysD acc) →
    list_files t acc = dAppend acc (plainD t) := by
  induction t with
  | nil =>
    intro acc _ _
    simp [list_files, plainD, dAppend_nil]
  | sub n cs rest ihcs ihrest =>
    intro acc hwf hd
    cases hwf with
    | sub hg hn hwcs hwrest =>
      have hfresh : n ∉ keysD acc := hd n (List.mem_cons_self n (names rest))
      have hcs : list_files cs PyDict.nil = plainD cs := by
        have := ihcs PyDict.nil hwcs (by intro k _; simp [keysD])
        simpa [dAppend] using this
      have hstep : dictSet (fun k r => PyDict.dict k (list_files cs PyDict.nil) r) acc n
          = dAppend acc (PyDict.dict n (plainD cs) PyDict.nil) := by
        rw [dictSet_fresh _ _ _ hfresh, hcs]
      rw [list_files, hstep]
      rw [ihrest _ hwrest ?hdisj]
      · rw [dAppend_assoc]
        rfl
      case hdisj =>
        intro k hk
        rw [keysD_dAppend]
        intro hmem
        rcases List.mem_append.mp hmem with h1 | h1
        · exact hd k (List.mem_cons_of_mem n hk) h1
        · have : k = n := by simpa [keysD] using h1
          exact hn (this ▸ hk)
  | blob n dt m rest ihrest =>
    intro acc hwf hd
    cases hwf with
    | blob hg hn hwrest =>
      have hfresh : n ∉ keysD acc := hd n (List.mem_cons_self n (names rest))
      rw [list_files, dictSet_fresh _ _ _ hfresh]
      rw [ihrest _ hwrest ?hdisj2]
      · rw [dAppend_assoc]
        rfl
      case hdisj2 =>
        intro k hk
        rw [keysD_dAppend]
        intro hmem
        rcases List.mem_append.mp hmem with h1 | h1
        · exact hd k (List.mem_cons_of_mem n hk) h1
        · have : k = n := by simpa [keysD] using h1
          exact hn (this ▸ hk)

/-- The items accumulated by the flattener over a plain nested dict are the
leaves, each keyed by its path folded onto the parent key. -/
theorem flattenItems_plainD (t : GForest) : ∀ parent : List Char,
    flattenItems (plainD t) parent =
      (leaves t).map (fun p => (p.1.foldl mkKey parent, p.2)) := by
  induction t with
  | nil => intro parent; rfl
  | sub n cs rest ihcs ihrest =>
    intro parent
    simp only [plainD, flattenItems, leaves, List.map_append, List.map_map,
      ihcs, ihrest]
    congr 1
  | blob n dt m rest ihrest =>
    intro parent
    simp only [plainD, flattenItems, leaves, List.map_cons, List.foldl_cons,
      List.foldl_nil, ihrest]

theorem joinSegs_cons_cons (a b : List Char) (ss : List (List Char)) :
    joinSegs ((a ++ '/' :: b) :: ss) = a ++ '/' :: joinSegs (b :: ss) := by
  cases ss with
  | nil => rfl
  | cons s2 ss2 => simp [joinSegs, List.append_assoc]

theorem foldl_mkKey_join (ss : List (List Char)) : ∀ s : List Char, s ≠ [] →
    ss.foldl mkKey s = joinSegs (s :: ss) := by
  induction ss with
  | nil => intro s hs; rfl
  | cons s1 ss1 ih =>
    intro s hs
    have h1 : mkKey s s1 = s ++ '/' :: s1 := by simp [mkKey, hs]
    rw [List.foldl_cons, h1, ih (s ++ '/' :: s1) (by simp),
      joinSegs_cons_cons]
    rfl

theorem slash_split (a : List Char) : ∀ b x y : List Char,
    '/' ∉ a → '/' ∉ b → a ++ '/' :: x = b ++ '/' :: y → a = b ∧ x = y := by
  induction a with
  | nil =>
    intro b x y ha hb h
    cases b with
    | nil => simpa using h
    | cons d b2 =>
      exfalso
      simp only [List.nil_append, List.cons_append, List.cons.injEq] at h
      exact hb (h.1 ▸ List.mem_cons_self d b2)
  | cons c a2 ih =>
    intro b x y ha hb h
    cases b with
    | nil =>
      exfalso
      simp only [List.nil_append, List.cons_append, List.cons.injEq] at h
      exact ha (h.1.symm ▸ List.mem_cons_self c a2)
    | cons d b2 =>
      simp only [List.cons_append, List.cons.injEq] at h
      obtain ⟨h1, h2⟩ := h
      obtain ⟨h3, h4⟩ := ih b2 x y (fun hm => ha (List.mem_cons_of_mem c hm))
        (fun hm => hb (List.mem_cons_of_mem d hm)) h2
      exact ⟨by rw [h1, h3], h4⟩

theorem joinSegs_inj (p : List (List Char)) : ∀ q : List (List Char),
    (∀ s ∈ p, goodName s) → (∀ s ∈ q, goodName s) →
    joinSegs p = joinSegs q → p = q := by
  induction p with
  | nil =>
    intro q hp hq h
    cases q with
    | nil => rfl
    | cons t ts =>
      exfalso
      cases ts with
      | nil => exact (hq t (by simp)).1 (by simpa [joinSegs] using h.symm)
      | cons t2 ts2 =>
        have hl := congrArg List.length h
        simp [joinSegs] at hl
        omega
  | cons s ps ih =>
    intro q hp hq h
    cases ps with
    | nil =>
      cases q with
      | nil =>
        exfalso
        exact (hp s (by simp)).1 (by simpa [joinSegs] using h)
      | cons t ts =>
        cases ts with
        | nil =>
          have : s = t := by simpa [joinSegs] using h
          rw [this]
        | cons t2 ts2 =>
          exfalso
          have hsl : '/' ∈ s := by
            rw [show joinSegs [s] = s from rfl] at h
            rw [show joinSegs (t :: t2 :: ts2) = t ++ '/' :: joinSegs (t2 :: ts2)
              from rfl] at h
            rw [h]
            exact List.mem_append_right t (List.mem_cons_self '/' _)
          exact (hp s (by simp)).2 hsl
    | cons s2 ps2 =>
      cases q with
      | nil =>
        exfalso
        have hl := congrArg List.length h
        simp [joinSegs] at hl
      | cons t ts =>
        cases ts with
        | nil =>
          exfalso
          have hsl : '/' ∈ t := by
            rw [show joinSegs [t] = t from rfl] at h
            rw [show joinSegs (s :: s2 :: ps2) = s ++ '/' :: joinSegs (s2 :: ps2)
              from rfl] at h
            rw [← h]
            exact List.mem_append_right s (List.mem_cons_self '/' _)
          exact (hq t (by simp)).2 hsl
        | cons t2 ts2 =>
          rw [show joinSegs (s :: s2 :: ps2) = s ++ '/' :: joinSegs (s2 :: ps2)
            from rfl, show joinSegs (t :: t2 :: ts2) = t ++ '/' :: joinSegs (t2 :: ts2)
            from rfl] at h
          obtain ⟨h1, h2⟩ := slash_split s t (joinSegs (s2 :: ps2))
            (joinSegs (t2 :: ts2)) (hp s (by simp)).2 (hq t (by simp)).2 h
          have h3 := ih (t2 :: ts2) (fun u hu => hp u (List.mem_cons_of_mem s hu))
            (fun u hu => hq u (List.mem_cons_of_mem t hu)) h2
          rw [h1, h3]

theorem leaves_length (t : GForest) : (leaves t).length = leafCount t := by
  induction t with
  | nil => rfl
  | sub n cs rest ihcs ihr => simp [leaves, leafCount, ihcs, ihr]
  | blob n d m rest ihr =>
    simp [leaves, leafCount, ihr]
    omega

theorem leaves_good (t : GForest) (hw : WfForest t) :
    ∀ p ∈ leaves t, (∀ s ∈ p.1, goodName s) ∧ p.1 ≠ [] := by
  induction t with
  | nil => intro p hp; cases hp
  | sub n cs rest ihcs ihr =>
    cases hw with
    | sub hg hn hwcs hwr =>
      intro p hp
      rcases List.mem_append.mp hp with h1 | h1
      · obtain ⟨p0, hp0, rfl⟩ := List.mem_map.mp h1
        refine ⟨?_, by simp⟩
        intro u hu
        rcases List.mem_cons.mp hu with rfl | hu2
        · exact hg
        · exact ((ihcs hwcs) p0 hp0).1 u hu2
      · exact ihr hwr p h1
  | blob n d m rest ihr =>
    cases hw with
    | blob hg hn hwr =>
      intro p hp
      rcases List.mem_cons.mp hp with rfl | h1
      · refine ⟨?_, by simp⟩
        intro u hu
        rcases List.mem_cons.mp hu with rfl | hu2
        · exact hg
        · cases hu2
      · exact ihr hwr p h1

theorem leaves_head (t : GForest) :
    ∀ p ∈ leaves t, ∃ h rest2, p.1 = h :: rest2 ∧ h ∈ names t := by
  induction t with
  | nil => intro p hp; cases hp
  | sub n cs rest ihcs ihr =>
    intro p hp
    rcases List.mem_append.mp hp with h1 | h1
    · obtain ⟨p0, hp0, rfl⟩ := List.mem_map.mp h1
      exact ⟨n, p0.1, rfl, List.mem_cons_self n (names rest)⟩
    · obtain ⟨h0, r0, he, hm⟩ := ihr p h1
      exact ⟨h0, r0, he, List.mem_cons_of_mem n hm⟩
  | blob n d m rest ihr =>
    intro p hp
    rcases List.mem_cons.mp hp with rfl | h1
    · exact ⟨n, [], rfl, List.mem_cons_self n (names rest)⟩
    · obtain ⟨h0, r0, he, hm⟩ := ihr p h1
      exact ⟨h0, r0, he, List.mem_cons_of_mem n hm⟩

theorem leaves_paths_nodup (t : GForest) (hw : WfForest t) :
    ((leaves t).map (fun p => p.1)).Nodup := by
  induction t with
  | nil => simp [leaves]
  | sub n cs rest ihcs ihr =>
    cases hw with
    | sub hg hn hwcs hwr =>
      rw [leaves, List.map_append, List.map_map]
      refine List.Nodup.append ?_ (ihr hwr) ?_
      · have hcomp : ((fun (p : List (List Char) × (List Nat × Nat)) => p.1) ∘
            (fun (p : List (List Char) × (List Nat × Nat)) => (n :: p.1, p.2))) =
            ((fun l => n :: l) ∘
              (fun (p : List (List Char) × (List Nat × Nat)) => p.1)) := rfl
        rw [hcomp, ← List.map_map]
        exact (ihcs hwcs).map (fun a b hab => by injection hab)
      · intro x hx1 hx2
        obtain ⟨p0, hp0, he⟩ := List.mem_map.mp hx1
        obtain ⟨p1, hp1, he1⟩ := List.mem_map.mp hx2
        obtain ⟨h0, r0, hre, hm⟩ := leaves_head rest p1 hp1
        have hx : x = n :: p0.1 := by rw [← he]; rfl
        have hx2e : x = h0 :: r0 := by rw [← he1, hre]
        have hne : n :: p0.1 = h0 :: r0 := hx.symm.trans hx2e
        injection hne with hnh _
        exact hn (hnh ▸ hm)
  | blob n d m rest ihr =>
    cases hw with
    | blob hg hn hwr =>
      rw [leaves, List.map_cons]
      refine List.nodup_cons.mpr ⟨?_, ihr hwr⟩
      intro hmem
      obtain ⟨p0, hp0, he⟩ := List.mem_map.mp hmem
      obtain ⟨h0, r0, hre, hm⟩ := leaves_head rest p0 hp0
      rw [hre] at he
      have : h0 = n := by
        simp only [List.cons.injEq] at he
        exact he.1
      exact hn (this ▸ hm)

theorem dictInsert_fresh {β : Type} (d : List (List Char × β)) (k : List Char)
    (v : β) (hk : ∀ p ∈ d, p.1 ≠ k) : dictInsert d k v = d ++ [(k, v)] := by
  have hany : d.any (fun p => p.1 == k) = false := by
    rw [List.any_eq_false]
    intro p hp
    simpa using hk p hp
  simp [dictInsert, hany]

theorem foldl_dictInsert_append {β : Type} (l : List (List Char × β)) :
    ∀ acc : List (List Char × β), ((acc ++ l).map (fun p => p.1)).Nodup →
    l.foldl (fun d p => dictInsert d p.1 p.2) acc = acc ++ l := by
  induction l with
  | nil => intro acc h; simp
  | cons x xs ih =>
    intro acc h
    have hfresh : ∀ p ∈ acc, p.1 ≠ x.1 := by
      intro p hp he
      rw [List.map_append, List.nodup_append] at h
      exact h.2.2 (List.mem_map.mpr ⟨p, hp, rfl⟩)
        (by rw [he]; exact List.mem_map.mpr ⟨x, List.mem_cons_self x xs, rfl⟩)
    rw [List.foldl_cons, dictInsert_fresh acc x.1 x.2 hfresh]
    have hx : acc ++ [(x.1, x.2)] = acc ++ [x] := rfl
    rw [hx, ih (acc ++ [x]) (by simpa using h)]
    simp

theorem dictOf_self {β : Type} (l : List (List Char × β))
    (h : (l.map (fun p => p.1)).Nodup) : dictOf l = l := by
  have := foldl_dictInsert_append l [] (by simpa using h)
  simpa [dictOf] using this

/-- The slash-joined leaf paths of a well-formed tree are pairwise
distinct. -/
theorem joined_leaves_nodup (t : GForest) (hw : WfForest t) :
    (((leaves t).map (fun p => (joinSegs p.1, p.2))).map
      (fun p => p.1)).Nodup := by
  rw [List.map_map]
  have hpaths := leaves_paths_nodup t hw
  have hcomp : ((fun (p : List Char × (List Nat × Nat)) => p.1) ∘
      (fun (p : List (List Char) × (List Nat × Nat)) => (joinSegs p.1, p.2))) =
      (joinSegs ∘ (fun (p : List (List Char) × (List Nat × Nat)) => p.1)) := rfl
  rw [hcomp, ← List.map_map]
  refine hpaths.map_on ?_
  intro x hx y hy hxy
  obtain ⟨px, hpx, hex⟩ := List.mem_map.mp hx
  obtain ⟨py, hpy, hey⟩ := List.mem_map.mp hy
  exact joinSegs_inj x y (hex ▸ (leaves_good t hw px hpx).1)
    (hey ▸ (leaves_good t hw py hpy).1) hxy

/-- The flat file dictionary built by `flatten(list_files(...))` on a
well-formed git tree is exactly the list of leaves keyed by their
slash-joined paths. -/
theorem flatten_listFiles_eq (t : GForest) (hw : WfForest t) :
    flatten (list_files t PyDict.nil) [] =
      (leaves t).map (fun p => (joinSegs p.1, p.2)) := by
  have h1 : list_files t PyDict.nil = plainD t := by
    have := list_files_plain t PyDict.nil hw (by intro k hk; simp [keysD])
    simpa [dAppend] using this
  have h2 : flattenItems (plainD t) [] =
      (leaves t).map (fun p => (joinSegs p.1, p.2)) := by
    rw [flattenItems_plainD]
    apply List.map_congr_left
    intro p hp
    obtain ⟨hgood, hne⟩ := leaves_good t hw p hp
    obtain ⟨h0, r0, hre, _⟩ := leaves_head t p hp
    rw [hre, List.foldl_cons, show mkKey [] h0 = h0 from rfl,
      foldl_mkKey_join r0 h0 (hgood h0 (by rw [hre]; simp)).1, ← hre]
  have hnd : ((flattenItems (plainD t) []).map (fun p => p.1)).Nodup := by
    rw [h2]
    exact joined_leaves_nodup t hw
  rw [flatten, h1, dictOf_self _ hnd, h2]

/-- Shared with the totals theorem: the length of the flattened file dict
equals the number of leaves of the tree. -/
theorem flatten_listFiles_length (t : GForest) (hw : WfForest t) :
    (flatten (list_files t PyDict.nil) []).length = leafCount t := by
  rw [flatten_listFiles_eq t hw, List.length_map, leaves_length]

theorem joinSegs_shape (s : List Char) (ss : List (List Char))
    (hg : goodName s) :
    joinSegs (s :: ss) ≠ [] ∧ (joinSegs (s :: ss)).head? ≠ some '/' := by
  obtain ⟨hne, hns⟩ := hg
  cases s with
  | nil => exact absurd rfl hne
  | cons c s2 =>
    have hc : c ≠ '/' := fun h => hns (h ▸ List.mem_cons_self c s2)
    cases ss with
    | nil =>
      refine ⟨by simp [joinSegs], ?_⟩
      simp only [joinSegs, List.head?]
      intro h
      exact hc (by simpa using h)
    | cons t ts =>
      rw [show joinSegs ((c :: s2) :: t :: ts) =
        (c :: s2) ++ '/' :: joinSegs (t :: ts) from rfl]
      refine ⟨by simp, ?_⟩
      simp only [List.cons_append, List.head?]
      intro h
      exact hc (by simpa using h)

/-! ### Diff statistics -/

theorem foldr_added_nil (t : DTree) :
    t.foldr (fun p acc => acc + p.2.length) 0 = totalLines t := by
  induction t with
  | nil => rfl
  | cons x xs ih =>
    simp only [List.foldr_cons, ih]
    simp [totalLines]
    omega

theorem foldr_fromOld_nil (t : DTree) :
    t.foldr (fun p (acc : Nat × Nat) => (acc.1, acc.2 + p.2.length))
      ((0, 0) : Nat × Nat) = (0, totalLines t) := by
  induction t with
  | nil => simp [totalLines]
  | cons x xs ih =>
    simp only [List.foldr_cons, ih]
    simp [totalLines, Prod.ext_iff]
    omega

/-- A diff from the empty tree reports every line of the new side as an
insertion and nothing as a deletion. -/
theorem diffStats_nil_left (t : DTree) : diffStats [] t = (totalLines t, 0) := by
  unfold diffStats
  simp only [List.foldr_nil, List.lookup_nil]
  rw [foldr_added_nil]
  simp

/-- A diff to the empty tree reports every line of the old side as a
deletion and nothing as an insertion. -/
theorem diffStats_nil_right (t : DTree) : diffStats t [] = (0, totalLines t) := by
  unfold diffStats
  simp only [List.foldr_nil, List.lookup_nil]
  rw [foldr_fromOld_nil]

/-! ### The commit history walker -/

theorem reachF_self (repo : Repo) (n a : Nat) : reachF repo n a a = true := by
  cases n <;> simp [reachF]

theorem twoChain_parentIds (repo : Repo) (c0 c1 : CommitRec)
    (hc : repo.commits = [c0, c1]) (h0 : c0.id = 0) (h1 : c1.id = 1) :
    parentIds repo 0 = c0.parents ∧ parentIds repo 1 = c1.parents := by
  constructor
  · simp [parentIds, findCommit, hc, List.find?, h0]
  · simp [parentIds, findCommit, hc, List.find?, h0, h1]

theorem twoChain_reach (repo : Repo) (c0 c1 : CommitRec)
    (hc : repo.commits = [c0, c1]) (h0 : c0.id = 0) (h1 : c1.id = 1)
    (hp0 : c0.parents = [1]) (hp1 : c1.parents = []) :
    ∀ x, reachF repo repo.commits.length 0 x = true ↔ (x = 0 ∨ x = 1) := by
  obtain ⟨hP0, hP1⟩ := twoChain_parentIds repo c0 c1 hc h0 h1
  rw [hp0] at hP0
  rw [hp1] at hP1
  have hl : repo.commits.length = 2 := by rw [hc]; rfl
  intro x
  rw [hl]
  constructor
  · intro h
    simp only [reachF, hP0, hP1, List.any_cons, List.any_nil,
      Bool.or_false, Bool.or_eq_true, beq_iff_eq] at h
    rcases h with h | h
    · exact Or.inl h.symm
    · exact Or.inr h.symm
  · intro h
    rcases h with rfl | rfl
    · simp [reachF]
    · simp [reachF, hP0, hP1]

theorem twoChain_walk_unique (repo : Repo) (c0 c1 : CommitRec)
    (hc : repo.commits = [c0, c1]) (h0 : c0.id = 0) (h1 : c1.id = 1)
    (hp0 : c0.parents = [1]) (hp1 : c1.parents = []) :
    ∀ out, walkContract repo 0 out → out = [0, 1] := by
  intro out hw
  obtain ⟨hnd, hsub, hcomp, hord⟩ := hw
  have hreach := twoChain_reach repo c0 c1 hc h0 h1 hp0 hp1
  have hm0 : 0 ∈ out := hcomp 0 ((hreach 0).mpr (Or.inl rfl))
  have hm1 : 1 ∈ out := hcomp 1 ((hreach 1).mpr (Or.inr rfl))
  have hmem : ∀ x ∈ out, x = 0 ∨ x = 1 := fun x hx => (hreach x).mp (hsub x hx)
  have hP0 : parentIds repo 0 = [1] := by
    rw [(twoChain_parentIds repo c0 c1 hc h0 h1).1, hp0]
  have hidx : out.indexOf 0 < out.indexOf 1 :=
    (hord 0 hm0 1 (by rw [hP0]; exact List.mem_cons_self 1 [])).2
  cases out with
  | nil => cases hm0
  | cons a t =>
    cases t with
    | nil =>
      simp only [List.mem_singleton] at hm0 hm1
      omega
    | cons b u =>
      cases u with
      | nil =>
        rcases hmem a (by simp) with ha | ha <;>
          rcases hmem b (by simp) with hb | hb <;> subst ha <;> subst hb
        · simp at hm1
        · rfl
        · exact absurd hidx (by decide)
        · simp at hm0
      | cons c v =>
        exfalso
        rcases List.nodup_cons.mp hnd with ⟨ha1, hnd2⟩
        rcases List.nodup_cons.mp hnd2 with ⟨hb1, _⟩
        simp only [List.mem_cons, not_or] at ha1 hb1
        have hab : a ≠ b := ha1.1
        have hac : a ≠ c := ha1.2.1
        have hbc : b ≠ c := hb1.1
        rcases hmem a (by simp) with ha | ha <;>
          rcases hmem b (by simp) with hb | hb <;>
            rcases hmem c (by simp) with hc2 | hc2 <;> omega

/-! ### The files page loop -/

/-- If the sorted file list contains a file whose sniffed type is viewable
but whose bytes are not valid UTF-8, the per-file loop raises. -/
theorem filesLoop_error (sniff : List Nat → List Char)
    (l : List (List Char × (List Nat × Nat))) : ∀ i data,
    (∃ p ∈ l, is_mime_viewable (sniff p.2.1) = true ∧ utf8Ok p.2.1 = false) →
    ∃ e, filesLoop sniff l i data = Except.error e := by
  induction l with
  | nil =>
    intro i data h
    obtain ⟨p, hp, _⟩ := h
    cases hp
  | cons x xs ih =>
    intro i data h
    rcases x with ⟨px, dv⟩
    by_cases hv : is_mime_viewable (sniff dv.1) = true
    · by_cases hd : utf8Ok dv.1 = true
      · obtain ⟨p, hp, hpv, hpd⟩ := h
        have hpx : p ∈ xs := by
          rcases List.mem_cons.mp hp with rfl | h2
          · rw [hd] at hpd
            cases hpd
          · exact h2
        obtain ⟨e, he⟩ := ih (i + 1) _ ⟨p, hpx, hpv, hpd⟩
        exact ⟨e, by simp only [filesLoop, hv, hd, if_true]; exact he⟩
      · exact ⟨px, by simp only [filesLoop, hv, hd, if_true, if_false,
          Bool.false_eq_true]⟩
    · obtain ⟨p, hp, hpv, hpd⟩ := h
      have hpx : p ∈ xs := by
        rcases List.mem_cons.mp hp with rfl | h2
        · exact absurd hpv hv
        · exact h2
      obtain ⟨e, he⟩ := ih (i + 1) _ ⟨p, hpx, hpv, hpd⟩
      exact ⟨e, by simp only [filesLoop, hv, if_false, Bool.false_eq_true]; exact he⟩

/-! ### The index entry point -/

theorem lookup_os_remove (fs : FileSys) (p : List Char) :
    lookupFS (os_remove fs p) p = none := by
  induction fs with
  | nil => rfl
  | cons x xs ih =>
    rcases x with ⟨k, v⟩
    rw [os_remove, List.filter_cons]
    by_cases h : k = p
    · rw [if_neg (by simp [h])]
      exact ih
    · rw [if_pos (by simp [h])]
      have hne : (p == k) = false := beq_eq_false_iff_ne.mpr (fun he => h he.symm)
      simp only [lookupFS, List.lookup, hne]
      exact ih

/-- The index replacement succeeds exactly when no `index.html` entry is
present or the existence check (which follows symlinks) succeeds. -/
theorem replace_index_ok_iff (fs : FileSys) :
    exceptOk (replace_index fs) = true ↔
      (lookupFS fs indexPath = none ∨ os_path_exists fs indexPath = true) := by
  unfold replace_index
  by_cases he : os_path_exists fs indexPath = true
  · rw [if_pos he]
    unfold os_symlink
    rw [lookup_os_remove]
    simp [exceptOk, he]
  · rw [if_neg he]
    unfold os_symlink
    cases hl : lookupFS fs indexPath with
    | none => simp [hl, exceptOk]
    | some v =>
      simp [exceptOk, he]

/-! ### Remaining shared facts -/

theorem length_refsRowsOf (b : Bool) (l : List RC) :
    (refsRowsOf b l).length = min MAX_REFS l.length := by
  simp [refsRowsOf, refsProcess, length_pySort]

theorem timeLeRC_total (a b : RC) :
    (fun a b : RC => decide (a.2.commit_time ≤ b.2.commit_time)) a b = true ∨
    (fun a b : RC => decide (a.2.commit_time ≤ b.2.commit_time)) b a = true := by
  rcases Nat.le_total a.2.commit_time b.2.commit_time with h | h
  · exact Or.inl (by simpa)
  · exact Or.inr (by simpa)

theorem timeLeRC_trans (a b c : RC)
    (h1 : (fun a b : RC => decide (a.2.commit_time ≤ b.2.commit_time)) a b = true)
    (h2 : (fun a b : RC => decide (a.2.commit_time ≤ b.2.commit_time)) b c = true) :
    (fun a b : RC => decide (a.2.commit_time ≤ b.2.commit_time)) a c = true := by
  simp only [decide_eq_true_eq] at h1 h2 ⊢
  omega

theorem timeLeC_total (a b : CommitRec) :
    (fun a b : CommitRec => decide (a.commit_time ≤ b.commit_time)) a b = true ∨
    (fun a b : CommitRec => decide (a.commit_time ≤ b.commit_time)) b a = true := by
  rcases Nat.le_total a.commit_time b.commit_time with h | h
  · exact Or.inl (by simpa)
  · exact Or.inr (by simpa)

theorem timeLeC_trans (a b c : CommitRec)
    (h1 : (fun a b : CommitRec => decide (a.commit_time ≤ b.commit_time)) a b = true)
    (h2 : (fun a b : CommitRec => decide (a.commit_time ≤ b.commit_time)) b c = true) :
    (fun a b : CommitRec => decide (a.commit_time ≤ b.commit_time)) a c = true := by
  simp only [decide_eq_true_eq] at h1 h2 ⊢
  omega

theorem wf_exTree9 : WfForest exTree9 := by
  refine WfForest.sub ⟨by decide, by decide⟩ (by decide) ?_ ?_
  · exact WfForest.blob ⟨by decide, by decide⟩ (by decide) WfForest.nil
  · exact WfForest.blob ⟨by decide, by decide⟩ (by decide) WfForest.nil

theorem wf_exTreeOk : WfForest exTreeOk :=
  WfForest.blob ⟨by decide, by decide⟩ (by decide) WfForest.nil

/-! # Claim theorems -/

/-- C1: the claim states that for every non-root commit the (insertions,
deletions) pair shown on the commits page sums the lines added and removed
going from the first parent's tree to the commit's tree.  The code (gib.py
line 112) calls `commit.tree.diff_to_tree(parent.tree)`, whose receiver is
the *old* side of the diff, so the computed pair is the swap of the
specified one: at a commit `A` that adds the one-line file `b` over its
parent `R`, the commits page shows insertions 0 / deletions 1 where the
claim requires 1 / 0 (the root row correctly shows 1 / 0 because line 114
passes `swap=True`). -/
theorem commit_stats_swapped :
    commitStats exRepoC1 cA1 = (0, 1) ∧
    specCommitStats exRepoC1 cA1 = (1, 0) ∧
    commitStats exRepoC1 cA1 ≠ specCommitStats exRepoC1 cA1 ∧
    (generate_commits_html (fun _ => []) exRepoC1
        (recordsOf exRepoC1 [0, 1])).rows.map
      (fun r => (r.commit_id, r.commit_insertions, r.commit_deletions)) =
      [(0, 0, 1), (1, 1, 0)] :=
  ⟨by decide, by decide, by decide, by decide⟩

/-- C2 (counterexample): with 101 references of strictly increasing commit
times the truly most recent reference is the last enumerated one; the refs
page slices to the first `MAX_REFS` *before* sorting (gib.py line 143), so
its rows differ from the first `MAX_REFS` of the fully sorted list. -/
theorem refs_cap_counterexample :
    refsRowsOf false exRefs101 ≠ specRefsRowsOf false exRefs101 := by decide

/-- C2 (amended): the rows of the refs page are the first `MAX_REFS`
references in enumeration order, subsequently sorted by commit time
descending (a permutation of the uncapped prefix, in descending order);
they equal the spec's sort-then-cap construction only when the reference
list does not exceed the cap. -/
theorem refs_cap_before_sort (b : Bool) (l : List RC) :
    List.Perm (refsProcess l) (l.take MAX_REFS) ∧
    (refsProcess l).Pairwise
      (fun p q => q.2.commit_time ≤ p.2.commit_time) ∧
    (l.length ≤ MAX_REFS → refsRowsOf b l = specRefsRowsOf b l) := by
  refine ⟨?_, ?_, ?_⟩
  · exact (List.reverse_perm _).trans (pySort_perm _ _)
  · unfold refsProcess
    rw [List.pairwise_reverse]
    have h := pairwise_pySort
      (fun a b : RC => decide (a.2.commit_time ≤ b.2.commit_time))
      timeLeRC_total timeLeRC_trans (l.take MAX_REFS)
    exact h.imp (fun h1 => by simpa using h1)
  · intro hlen
    have h1 : l.take MAX_REFS = l := List.take_of_length_le hlen
    unfold refsRowsOf specRefsRowsOf refsProcess specRefsProcess
    rw [h1, List.take_of_length_le (by simp [length_pySort]; omega)]

theorem refs_cap_before_sort_witness :
    exRefs2.length ≤ MAX_REFS ∧
    refsRowsOf false exRefs2 = specRefsRowsOf false exRefs2 :=
  ⟨by decide, (refs_cap_before_sort false exRefs2).2.2 (by decide)⟩

/-- C3 (counterexample): with 101 tags, the refs page reports
`n_tags = 100` (the length of the *capped* row list, gib.py line 163), not
the true count 101. -/
theorem refs_totals_capped :
    (generate_refs_html [] exRefs101).n_tags ≠ exRefs101.length := by
  have h : (generate_refs_html [] exRefs101).n_tags
      = min MAX_REFS exRefs101.length := length_refsRowsOf false exRefs101
  rw [h]
  decide

/-- C3 (amended): the commits page reports the true uncapped commit count
and the files page the true uncapped file count (the number of leaves of
the tree), but the refs page reports `n_branches` and `n_tags` as the
lengths of the already-capped row lists, i.e. `min MAX_REFS L`. -/
theorem page_totals (fmt : Nat → List Char) (repo : Repo)
    (walked : List CommitRec) (branches tags : List RC)
    (sniff : List Nat → List Char) (tree : GForest) :
    (generate_commits_html fmt repo walked).n_commits = walked.length ∧
    (generate_refs_html branches tags).n_branches
      = min MAX_REFS branches.length ∧
    (generate_refs_html branches tags).n_tags = min MAX_REFS tags.length ∧
    (∀ pg, generate_files_html sniff tree = Except.ok pg → WfForest tree →
      pg.n_files = leafCount tree) := by
  refine ⟨?_, length_refsRowsOf true branches, length_refsRowsOf false tags, ?_⟩
  · simp [generate_commits_html, displayOrder, length_pySort]
  · intro pg hok hw
    unfold generate_files_html at hok
    cases hloop : filesLoop sniff (rawFiles tree) 0 [] with
    | ok data =>
      rw [hloop] at hok
      have hpg : pg = { rows := data, n_files := (rawFiles tree).length } := by
        cases hok
        rfl
      rw [hpg]
      show (rawFiles tree).length = leafCount tree
      rw [rawFiles, length_pySort, flatten_listFiles_length tree hw]
    | error e =>
      rw [hloop] at hok
      cases hok

theorem page_totals_witness :
    WfForest exTreeOk ∧
    ({ rows := [{ mode := "rw-r--r--".data, path := 'o' :: "k.txt".data,
                  viewable := true }],
       n_files := 1 } : FilesPage).n_files = leafCount exTreeOk :=
  ⟨wf_exTreeOk,
   (page_totals (fun _ => []) { commits := [] } [] [] [] sniffText
     exTreeOk).2.2.2 _ rfl wf_exTreeOk⟩

/-- C8: for a root commit (no parents) the statistics are computed against
the empty tree with the comparison direction swapped (gib.py line 114),
so the reported pair is the swap of the commit-tree-to-empty-tree diff:
insertions equal the total line count of all files in the commit's tree
and deletions equal zero. -/
theorem root_commit_stats (repo : Repo) (c : CommitRec)
    (h : c.parents = []) :
    commitStats repo c = Prod.swap (diffStats c.tree []) ∧
    commitStats repo c = (totalLines c.tree, 0) := by
  have hp : parentsOf repo c = [] := by simp [parentsOf, h]
  have hc : commitStats repo c = diffStats [] c.tree := by
    unfold commitStats
    rw [hp]
    rfl
  constructor
  · rw [hc, diffStats_nil_left, diffStats_nil_right]
    rfl
  · rw [hc, diffStats_nil_left]

theorem root_commit_stats_witness :
    cR1.parents = [] ∧ commitStats exRepoC1 cR1 = (1, 0) :=
  ⟨rfl, (root_commit_stats exRepoC1 cR1 rfl).2.trans (by decide)⟩

/-- C4 (counterexample): the claim states the walker lists every commit's
reachable ancestors *earlier*.  On a two-commit chain (head 0 with parent
1), the documented contract of the topological walk forces the output
[0, 1]: the ancestor 1 of 0 appears later, so the claimed ordering
property is false. -/
theorem walker_ancestors_not_earlier :
    (∀ out, walkContract exRepoW 0 out → out = [0, 1]) ∧
    ¬ ancestorsListedEarlier exRepoW [0, 1] := by
  constructor
  · exact twoChain_walk_unique exRepoW cW0 cW1 rfl rfl rfl rfl rfl
  · intro h
    have hanc : Ancestor exRepoW 0 1 := Ancestor.parent (by decide)
    exact absurd (h 0 (by decide) 1 hanc (by decide)) (by decide)

/-- C4 (amended): the walker lists every commit *before* all of its
reachable ancestors: under the walk contract, each listed commit's
ancestors are listed and appear strictly later in iteration order. -/
theorem walker_ancestors_later (repo : Repo) (start : Nat) (out : List Nat)
    (hw : walkContract repo start out) :
    ∀ c ∈ out, ∀ a, Ancestor repo c a →
      a ∈ out ∧ out.indexOf c < out.indexOf a := by
  intro c hc a hanc
  revert hc
  induction hanc with
  | parent hp =>
    intro hc
    exact hw.2.2.2 _ hc _ hp
  | step hp hanc2 ih =>
    intro hc
    obtain ⟨hpin, hlt⟩ := hw.2.2.2 _ hc _ hp
    obtain ⟨hain, hlt2⟩ := ih hpin
    exact ⟨hain, Nat.lt_trans hlt hlt2⟩

theorem walker_ancestors_later_witness :
    walkContract exRepoW 0 [0, 1] ∧
    (1 ∈ ([0, 1] : List Nat) ∧
     ([0, 1] : List Nat).indexOf 0 < ([0, 1] : List Nat).indexOf 1) := by
  have hcontract : walkContract exRepoW 0 [0, 1] := by
    refine ⟨by decide, by decide, ?_, by decide⟩
    intro c h
    rcases (twoChain_reach exRepoW cW0 cW1 rfl rfl rfl rfl rfl c).mp h with
      rfl | rfl
    · exact List.mem_cons_self 0 [1]
    · exact List.mem_cons_of_mem 0 (List.mem_cons_self 1 [])
  exact ⟨hcontract,
    walker_ancestors_later exRepoW 0 [0, 1] hcontract 0 (by decide) 1
      (Ancestor.parent (by decide))⟩

/-- C5 (counterexample): the claim states the resolver silently excludes a
tag whose ultimate target is not a commit.  `get_tags` (gib.py lines
74–86) has no such check: on a repository whose only tag points directly
at a blob, the returned list contains the (reference, blob) pair. -/
theorem tags_include_non_commit :
    get_tags exTagRepo =
      [({ name := "refs/tags/v1".data, target := 7 },
        some (GitObj.blob [1, 2]))] ∧
    ¬ resolverExcludesNonCommits exTagRepo :=
  ⟨by decide, by decide⟩

/-- C5 (amended): `get_tags` keeps *every* reference under the tag
namespace, pairing it with its once-dereferenced target object whether or
not that object is a commit — nothing is excluded, so the result has one
entry per tag reference. -/
theorem get_tags_resolves_all (repo : ObjRepo) :
    get_tags repo = (repo.references.filter
        (fun r => tagsNS.isPrefixOf r.name)).map
      (fun r => (r, derefOnce repo r.target)) ∧
    (get_tags repo).length = (repo.references.filter
      (fun r => tagsNS.isPrefixOf r.name)).length := by
  have h : ∀ l : List TagRef, getTagsLoop repo l =
      (l.filter (fun r => tagsNS.isPrefixOf r.name)).map
        (fun r => (r, derefOnce repo r.target)) := by
    intro l
    induction l with
    | nil => rfl
    | cons r rest ih =>
      by_cases hp : tagsNS.isPrefixOf r.name
      · simp [getTagsLoop, hp, List.filter_cons, ih, derefOnce]
      · simp [getTagsLoop, hp, List.filter_cons, ih]
  constructor
  · exact h repo.references
  · rw [get_tags, h repo.references]
    simp

/-- C6 (counterexample): the claim states a viewable file whose bytes are
not valid UTF-8 is downgraded without aborting.  On a tree with one file
of bytes `a\xe9` sniffed as `text/plain`, the per-file loop raises the
decode error (gib.py line 197 has no handler), so `generate_files_html`
aborts instead of downgrading. -/
theorem decode_failure_aborts_eval :
    generate_files_html sniffText exTree6 = Except.error ('a' :: ".txt".data) ∧
    is_mime_viewable (sniffText [97, 233]) = true ∧
    utf8Ok [97, 233] = false :=
  ⟨rfl, by decide, by decide⟩

/-- C6 (amended): a decode failure of a viewable file is fatal: whenever
the flattened, sorted file list contains a file whose sniffed media type
is viewable but whose bytes are not valid UTF-8, `generate_files_html`
raises the error (no files page is produced, and the run, which would
continue with the index step, aborts). -/
theorem decode_failure_aborts (sniff : List Nat → List Char) (tree : GForest)
    (h : ∃ p ∈ rawFiles tree, is_mime_viewable (sniff p.2.1) = true ∧
      utf8Ok p.2.1 = false) :
    ∃ e, generate_files_html sniff tree = Except.error e := by
  obtain ⟨e, he⟩ := filesLoop_error sniff (rawFiles tree) 0 [] h
  refine ⟨e, ?_⟩
  unfold generate_files_html
  rw [he]

theorem decode_failure_aborts_witness :
    (∃ p ∈ rawFiles exTree6, is_mime_viewable (sniffText p.2.1) = true ∧
      utf8Ok p.2.1 = false) ∧
    ∃ e, generate_files_html sniffText exTree6 = Except.error e :=
  ⟨⟨(('a' :: ".txt".data), ([97, 233], 33188)), by decide, by decide, by decide⟩,
   decode_failure_aborts sniffText exTree6
     ⟨(('a' :: ".txt".data), ([97, 233], 33188)), by decide, by decide, by decide⟩⟩

/-- C7 (counterexample): on a two-commit chain with equal commit times the
walker's output is forced to [0, 1] (head first); the display order of the
commits page (sort ascending by time, then reverse, gib.py lines 104–105)
flips the equal-time pair, so the two commits do *not* appear in the
walker's relative order. -/
theorem display_ties_flipped :
    (∀ out, walkContract exRepoW 0 out → out = [0, 1]) ∧
    recordsOf exRepoW [0, 1] = [cW0, cW1] ∧
    cW0.commit_time = cW1.commit_time ∧
    displayOrder [cW0, cW1] = [cW1, cW0] ∧
    cW0 ≠ cW1 :=
  ⟨twoChain_walk_unique exRepoW cW0 cW1 rfl rfl rfl rfl rfl,
   by decide, by decide, by decide, by decide⟩

/-- C7 (amended): the commits page is sorted by commit time descending,
and two commits with equal commit time appear in the *reverse* of their
relative order in the walker's output (Python sorts ascending stably and
then reverses the list, which flips ties). -/
theorem display_sorted_ties_reversed (l : List CommitRec) (x y : CommitRec)
    (h : List.Sublist [x, y] l) (ht : x.commit_time = y.commit_time) :
    (displayOrder l).Pairwise
      (fun a b => b.commit_time ≤ a.commit_time) ∧
    List.Sublist [y, x] (displayOrder l) := by
  constructor
  · unfold displayOrder
    rw [List.pairwise_reverse]
    have hp := pairwise_pySort
      (fun a b : CommitRec => decide (a.commit_time ≤ b.commit_time))
      timeLeC_total timeLeC_trans l
    exact hp.imp (fun h1 => by simpa using h1)
  · have h1 : List.Sublist [x, y]
        (pySort (fun a b : CommitRec =>
          decide (a.commit_time ≤ b.commit_time)) l) :=
      pySort_pair _ x y l h (by simp [ht])
    have h2 := h1.reverse
    simpa [displayOrder] using h2

theorem display_sorted_ties_reversed_witness :
    List.Sublist [cW0, cW1] [cW0, cW1] ∧ cW0.commit_time = cW1.commit_time ∧
    List.Sublist [cW1, cW0] (displayOrder [cW0, cW1]) :=
  ⟨List.Sublist.refl _, rfl,
   (display_sorted_ties_reversed [cW0, cW1] cW0 cW1
     (List.Sublist.refl _) rfl).2⟩

/-- C9: on every well-formed git tree (nonempty, slash-free, per-level
distinct entry names — structural invariants of git trees), the flattened
file mapping is exactly the leaves keyed by their full slash-joined paths:
one entry per reachable leaf, its size is the leaf count, no key repeats,
and no key is empty or starts with the separator. -/
theorem flatten_exact (t : GForest) (hw : WfForest t) :
    flatten (list_files t PyDict.nil) [] =
      (leaves t).map (fun p => (joinSegs p.1, p.2)) ∧
    (flatten (list_files t PyDict.nil) []).length = leafCount t ∧
    ((flatten (list_files t PyDict.nil) []).map (fun p => p.1)).Nodup ∧
    ∀ p ∈ flatten (list_files t PyDict.nil) [],
      p.1 ≠ [] ∧ p.1.head? ≠ some '/' := by
  refine ⟨flatten_listFiles_eq t hw, flatten_listFiles_length t hw, ?_, ?_⟩
  · rw [flatten_listFiles_eq t hw]
    exact joined_leaves_nodup t hw
  · intro p hp
    rw [flatten_listFiles_eq t hw] at hp
    obtain ⟨p0, hp0, he⟩ := List.mem_map.mp hp
    obtain ⟨h0, r0, hre, _⟩ := leaves_head t p0 hp0
    have hg : goodName h0 := (leaves_good t hw p0 hp0).1 h0 (by rw [hre]; simp)
    have hshape := joinSegs_shape h0 r0 hg
    have hfst : p.1 = joinSegs (h0 :: r0) := by
      rw [← he, ← hre]
    rw [hfst]
    exact hshape

theorem flatten_exact_witness :
    WfForest exTree9 ∧
    ((flatten (list_files exTree9 PyDict.nil) []).length = leafCount exTree9 ∧
     ((flatten (list_files exTree9 PyDict.nil) []).map (fun p => p.1)).Nodup) :=
  ⟨wf_exTree9,
   (flatten_exact exTree9 wf_exTree9).2.1,
   (flatten_exact exTree9 wf_exTree9).2.2.1⟩

/-- C10: the index entry-point replacement (gib.py lines 261–266) succeeds
exactly when no `index.html` entry exists or the link-following existence
check succeeds; when `index.html` is a dangling symbolic link, the
`os.path.exists` check is false, the stale link is not removed, and
`os.symlink` fails with `FileExistsError`, aborting the run after the
other pages were already written. -/
theorem index_dangling (fs : FileSys) (t : List Char)
    (hidx : lookupFS fs indexPath = some (FNode.symlink t))
    (hmiss : lookupFS fs t = none) :
    os_path_exists fs indexPath = false ∧
    (if os_path_exists fs indexPath then os_remove fs indexPath else fs)
      = fs ∧
    replace_index fs = Except.error fileExistsError ∧
    (∀ g : FileSys, exceptOk (replace_index g) = true ↔
      (lookupFS g indexPath = none ∨ os_path_exists g indexPath = true)) := by
  have hex : os_path_exists fs indexPath = false := by
    simp [os_path_exists, resolvesToFile, hidx, hmiss]
  refine ⟨hex, by rw [hex]; simp, ?_, replace_index_ok_iff⟩
  unfold replace_index
  rw [hex]
  simp only [Bool.false_eq_true, if_false]
  unfold os_symlink
  rw [hidx]
  rfl

theorem index_dangling_witness :
    os_path_exists exFS indexPath = false ∧
    replace_index exFS = Except.error fileExistsError :=
  ⟨(index_dangling exFS "old.html".data rfl rfl).1,
   (index_dangling exFS "old.html".data rfl rfl).2.2.1⟩

end Gib
